import Mathlib

/-!
Verification of the explanation-alignment pipeline of the movie-review
sentiment dashboard (src/app.py).

The pipeline is shallowly embedded: text is `List Char`, Python's `str.find`,
slicing, and the regex of normalization step 4 are modelled exactly, scores
are rationals (the SHAP values themselves come from an opaque model, so the
importance table is a parameter), and the NLTK word tokenizer is a parameter
(token lists are inputs, as they are to the offset-reconstruction loop).
-/

namespace SentimentApp

/-- Text is a list of characters. -/
abbrev Str := List Char

/-- Convert a Lean string literal to the character-list representation. -/
def s2c (s : String) : Str := s.data

/-! ## Text Normalizer, step 4: `re.sub(r'(\w)\1{5,}', '', text)` -/

/-- The ASCII fragment of the regex word class `\w`: letter, digit or
underscore. Python 3's `\w` on `str` (no `re.ASCII` flag) is Unicode-aware;
its full character table is external to this embedding, but it agrees with
this predicate on the ASCII range — in particular on `'!'` (non-word) and on
ASCII letters — which is all the concrete evaluations below use. -/
def wordChar (c : Char) : Bool :=
  ('a' ≤ c && c ≤ 'z') || ('A' ≤ c && c ≤ 'Z') || ('0' ≤ c && c ≤ '9') || (c == '_')

/-- Length of the leading run of characters equal to `c`. -/
def runLen (c : Char) : Str → Nat
  | [] => 0
  | d :: rest => if d = c then runLen c rest + 1 else 0

/-- `re.sub(r'(\w)\1{5,}', '', text)`, parameterized by the word-character
class `isWord` (the program's class is Python's Unicode-aware `\w`, whose
table is external; theorems quantify over `isWord`, so they hold for that
class, and concrete evaluations instantiate the ASCII fragment `wordChar`
where the two agree): scan left to right; a word character followed by at
least five more copies of itself is deleted together with the (greedy,
maximal) run it heads; everything else is kept. -/
def removeRepeats (isWord : Char → Bool) (l : Str) : Str :=
  match l with
  | [] => []
  | c :: rest =>
    let n := runLen c rest
    if isWord c && decide (5 ≤ n) then removeRepeats isWord (rest.drop n)
    else c :: removeRepeats isWord rest
termination_by l.length
decreasing_by
  · simp only [List.length_cons, List.length_drop]; omega
  · simp only [List.length_cons]; omega

/-! ## Python string primitives -/

/-- Python's slice-index normalization: a negative index counts from the end
(clamped at 0), a nonnegative one is used as is. -/
def pySliceIdx (len : Nat) (i : Int) : Nat :=
  if i < 0 then ((len : Int) + i).toNat else i.toNat

/-- Python's `text[:i]`. -/
def pyTake (l : Str) (i : Int) : Str := l.take (pySliceIdx l.length i)

/-- Python's `text[i:]`. -/
def pyDrop (l : Str) (i : Int) : Str := l.drop (pySliceIdx l.length i)

/-- First index `i ≥ s` at which `w` occurs in `text`, if any. -/
def findFrom (text w : Str) (s : Nat) : Option Nat :=
  ((List.range (text.length + 1)).filter
    (fun i => decide (s ≤ i) && w.isPrefixOf (text.drop i))).head?

/-- Python's `text.find(word, start)`: `-1` when the word does not occur at or
after `start` (negative `start` counts from the end, as in slicing). -/
def pyFind (text w : Str) (start : Int) : Int :=
  match findFrom text w (pySliceIdx text.length start) with
  | some i => (i : Int)
  | none => -1

/-! ## Offset Reconstructor (app.py lines 229-236) -/

/-- One entry of `word_positions`: `(word, start_idx, end_idx)`. -/
structure WordPos where
  word : Str
  start_idx : Int
  end_idx : Int
deriving DecidableEq, Repr

/-- The offset-reconstruction loop: for each token, `start_idx =
input_text.find(word, current_position)`, `end_idx = start_idx + len(word)`,
and the cursor becomes `end_idx` (also when `find` returned `-1`). -/
def word_positions (text : Str) : List Str → Int → List WordPos
  | [], _ => []
  | w :: ws, cur =>
    let s := pyFind text w cur
    let e := s + (w.length : Int)
    ⟨w, s, e⟩ :: word_positions text ws e

/-! ## Transform log and importance table lookups -/

/-- `reverse_mapping = {original: processed for original, processed in word_mapping}`:
a Python dict built from the pair list, later pairs overwriting earlier ones. -/
def dictLookup (wm : List (Str × Str)) (w : Str) : Option Str :=
  match wm with
  | [] => none
  | p :: rest =>
    match dictLookup rest w with
    | some r => some r
    | none => if p.1 = w then some p.2 else none

/-- Lookup in the SHAP table (`shap_values_df['SHAP'][name]`); feature names
are unique, so first match. -/
def tableLookup (table : List (Str × ℚ)) (w : Str) : Option ℚ :=
  match table with
  | [] => none
  | p :: rest => if p.1 = w then some p.2 else tableLookup rest w

/-! ## Feature Importance Selector (`compute_shap_values`, app.py lines 187-211) -/

/-- Absolute value of a score (`.abs()` on the SHAP series). -/
def rabs (v : ℚ) : ℚ := if v < 0 then -v else v

/-- The significance threshold `0.01`. -/
def threshold : ℚ := mkRat 1 100

/-- Rows of the SHAP table whose feature is in the transform log's after-set
and whose score has magnitude at least `0.01` (the two `.loc` filters). -/
def qualifying (table : List (Str × ℚ)) (wm : List (Str × Str)) : List (Str × ℚ) :=
  (table.filter (fun p => decide (p.1 ∈ wm.map Prod.snd))).filter
    (fun p => decide (threshold ≤ rabs p.2))

/-- Stable insertion (descending by `|score|`): the inserted element precedes
every element of not-larger magnitude already in the sorted tail. Since
`sortAbsDesc` inserts right-to-left, an element therefore ends up before all
LATER elements of equal magnitude — first-come order on ties, as `nlargest`
with its default `keep='first'` does. -/
def insertDesc (p : Str × ℚ) : List (Str × ℚ) → List (Str × ℚ)
  | [] => [p]
  | q :: qs => if rabs q.2 ≤ rabs p.2 then p :: q :: qs else q :: insertDesc p qs

/-- Stable sort descending by `|score|` (the order of `.abs().nlargest(top_n)`). -/
def sortAbsDesc : List (Str × ℚ) → List (Str × ℚ)
  | [] => []
  | p :: ps => insertDesc p (sortAbsDesc ps)

/-- Stable insertion (ascending by signed score). -/
def insertAsc (p : Str × ℚ) : List (Str × ℚ) → List (Str × ℚ)
  | [] => [p]
  | q :: qs => if p.2 < q.2 then p :: q :: qs else q :: insertAsc p qs

/-- Sort ascending by signed score (`sort_values(by="SHAP")`). -/
def sortShapAsc : List (Str × ℚ) → List (Str × ℚ)
  | [] => []
  | p :: ps => insertAsc p (sortShapAsc ps)

/-- `compute_shap_values`: returns the full table, the top-`topN` rows by
`|score|` re-sorted ascending by signed score, and the corrected count
(`top_n = top_n_shap_values_df.shape[0]`). -/
def compute_shap_values (table : List (Str × ℚ)) (wm : List (Str × Str))
    (topN : Nat) : List (Str × ℚ) × List (Str × ℚ) × Nat :=
  let top := (sortAbsDesc (qualifying table wm)).take topN
  (table, sortShapAsc top, top.length)

/-! ## Labels and the Color Mapper (app.py lines 238-246) -/

/-- The information content of a label string `f"POS ({v:.2f})"` /
`f"NEG ({v:.2f})"`: the sign word and the two-decimal rendering of the score. -/
structure Label where
  pos : Bool
  disp : ℚ
deriving DecidableEq, Repr

/-- Two-decimal rounding used by `f"{v:.2f}"` (half-up model; no claim here
depends on tie behavior): `⌊100·v + 1/2⌋ / 100`, written on the numerator and
denominator directly so that it evaluates by kernel reduction. -/
def round2 (v : ℚ) : ℚ := mkRat ((200 * v.num + (v.den : Int)).fdiv (2 * (v.den : Int))) 100

/-- The label attached to a SHAP value `v`: `'POS' if v > 0 else 'NEG'`
plus the two-decimal score. -/
def mkLabel (v : ℚ) : Label := ⟨decide (0 < v), round2 v⟩

/-- The key set of `color_options`: labels of top-`N` rows with full-table
score strictly above `0.01` (reds) or strictly below `-0.01` (blues). -/
def color_options (table top : List (Str × ℚ)) : List Label :=
  (top.filterMap (fun p =>
    match tableLookup table p.1 with
    | some v => if threshold < v then some (mkLabel v) else none
    | none => none)) ++
  (top.filterMap (fun p =>
    match tableLookup table p.1 with
    | some v => if v < -threshold then some (mkLabel v) else none
    | none => none))

/-! ## Span Resolver (app.py lines 249-273) -/

/-- One displacy entity: `{"start": ..., "end": ..., "label": ...}`. -/
structure Entity where
  start : Int
  «end» : Int
  label : Label
deriving DecidableEq, Repr

/-- The body of the entity loop for one positioned word: look the surface form
up in `reverse_mapping`; if the mapped form is in the SHAP table and its value
has magnitude at least `0.01`, emit an entity at the word's offsets. -/
def emit (wm : List (Str × Str)) (table : List (Str × ℚ)) (wp : WordPos) :
    Option Entity :=
  match dictLookup wm wp.word with
  | none => none
  | some pw =>
    match tableLookup table pw with
    | none => none
    | some v =>
      if threshold ≤ rabs v then some ⟨wp.start_idx, wp.end_idx, mkLabel v⟩
      else none

/-- Entities collected from the positioned words, starting the cursor at `cur`. -/
def entitiesFrom (text : Str) (tokens : List Str) (cur : Int)
    (wm : List (Str × Str)) (table : List (Str × ℚ)) : List Entity :=
  (word_positions text tokens cur).filterMap (emit wm table)

/-- The entity list of `generate_spacy_visualization` (cursor starts at 0). -/
def entitiesOf (text : Str) (tokens : List Str) (wm : List (Str × Str))
    (table : List (Str × ℚ)) : List Entity :=
  entitiesFrom text tokens 0 wm table

/-- The separator-insertion loop (app.py lines 259-266): walk consecutive
entities with a running `offset`; when `current_end + 1 == next_start`, insert
one `'_'` at `current_end` and bump the offset. -/
def insertSeps (mt : Str) (off : Int) : List Entity → Str
  | e0 :: e1 :: rest =>
    let ce := e0.«end» + off
    if ce + 1 = e1.start + off then
      insertSeps (pyTake mt ce ++ '_' :: pyDrop mt ce) (off + 1) (e1 :: rest)
    else insertSeps mt off (e1 :: rest)
  | _ => mt

/-- Number of consecutive entity pairs with a one-character gap
(`end + 1 = start`), i.e. the number of separators the loop inserts. -/
def countAdjacent : List Entity → Nat
  | e0 :: e1 :: rest => (if e0.«end» + 1 = e1.start then 1 else 0) + countAdjacent (e1 :: rest)
  | _ => 0

/-- The index-adjustment pass (app.py lines 269-273): each offset is shifted by
the number of `'_'` characters in the modified text before that offset. -/
def adjustEntities (mt : Str) (ents : List Entity) : List Entity :=
  ents.map (fun e =>
    ⟨e.start + (((pyTake mt e.start).count '_' : Nat) : Int),
     e.«end» + (((pyTake mt e.«end»).count '_' : Nat) : Int),
     e.label⟩)

/-- End-to-end span pipeline of `generate_spacy_visualization`: entities,
separator insertion, index adjustment. -/
def adjusted_entities (text : Str) (tokens : List Str) (wm : List (Str × Str))
    (table : List (Str × ℚ)) : List Entity :=
  let ents := entitiesOf text tokens wm table
  adjustEntities (insertSeps text 0 ents) ents

/-! ## Helper lemmas -/

lemma runLen_replicate (c : Char) (m : Nat) : runLen c (List.replicate m c) = m := by
  induction m with
  | zero => simp [runLen]
  | succ k ih => simp [List.replicate_succ, runLen, ih]

lemma removeRepeats_replicate_of_not_word (isWord : Char → Bool) (c : Char)
    (h : isWord c = false) :
    ∀ m, removeRepeats isWord (List.replicate m c) = List.replicate m c := by
  intro m
  induction m with
  | zero => simp [removeRepeats]
  | succ k ih =>
    rw [List.replicate_succ, removeRepeats]
    simp [h, ih]

lemma mem_insertAsc {x y : Str × ℚ} {l : List (Str × ℚ)} :
    y ∈ insertAsc x l ↔ y = x ∨ y ∈ l := by
  induction l with
  | nil => simp [insertAsc]
  | cons q qs ih =>
    by_cases h : x.2 < q.2
    · simp only [insertAsc, h, if_pos, List.mem_cons]
    · simp only [insertAsc, h, if_neg, if_false, List.mem_cons, ih]
      tauto

lemma pairwise_insertAsc {x : Str × ℚ} {l : List (Str × ℚ)}
    (h : l.Pairwise (fun p q => p.2 ≤ q.2)) :
    (insertAsc x l).Pairwise (fun p q => p.2 ≤ q.2) := by
  induction l with
  | nil => simp [insertAsc]
  | cons q qs ih =>
    rw [List.pairwise_cons] at h
    by_cases hx : x.2 < q.2
    · rw [insertAsc]
      simp only [hx, if_pos]
      refine List.Pairwise.cons ?_ (List.Pairwise.cons h.1 h.2)
      intro y hy
      rcases List.mem_cons.mp hy with rfl | hy
      · exact le_of_lt hx
      · exact (le_of_lt hx).trans (h.1 y hy)
    · rw [insertAsc]
      simp only [hx, if_neg, if_false]
      refine List.Pairwise.cons ?_ (ih h.2)
      intro y hy
      rcases mem_insertAsc.mp hy with rfl | hy
      · exact le_of_not_lt hx
      · exact h.1 y hy

lemma sortShapAsc_pairwise (l : List (Str × ℚ)) :
    (sortShapAsc l).Pairwise (fun p q => p.2 ≤ q.2) := by
  induction l with
  | nil => simp [sortShapAsc]
  | cons p ps ih => exact pairwise_insertAsc ih

/-! ## C9: normalization step 4 -/

/-- C9 counterexample: the claim says step 4 deletes every run of ANY single
character repeated 6+ times; but `re.sub(r'(\w)\1{5,}', '', text)` only
matches word characters, and `'!'` is outside `\w` (in Python's Unicode class
just as in its ASCII fragment instantiated here), so a run of seven `'!'`
survives unchanged. -/
theorem c9_counterexample :
    removeRepeats wordChar (s2c "!!!!!!!") = s2c "!!!!!!!" ∧
    s2c "!!!!!!!" ≠ ([] : Str) := by
  constructor
  · simp [removeRepeats, runLen, wordChar, s2c]
  · decide

/-- C9 (amended): step 4 deletes a run of a single character in the regex
word class `\w` (Unicode-aware in Python 3) repeated 6 or more times, and
leaves a run of any character outside `\w`, such as `'!'`, unchanged — proved
parametrically in the word-character class `isWord`, so it holds in
particular for the Unicode class the program uses. -/
theorem c9_amended (isWord : Char → Bool) (c : Char) (n : Nat) (h : 6 ≤ n) :
    removeRepeats isWord (List.replicate n c)
      = if isWord c then [] else List.replicate n c := by
  obtain ⟨m, rfl⟩ : ∃ m, n = m + 1 := ⟨n - 1, by omega⟩
  rw [List.replicate_succ, removeRepeats]
  simp only [runLen_replicate]
  by_cases hw : isWord c
  · have h5 : decide (5 ≤ m) = true := by simp; omega
    simp only [hw, h5, Bool.and_self, if_pos]
    rw [List.drop_of_length_le (by simp)]
    simp [removeRepeats, hw]
  · have hw' : isWord c = false := by simpa using hw
    simp [hw', removeRepeats_replicate_of_not_word isWord c hw' m]

/-- C9 amended witness: a run of seven `'a'` (a word character in Python's
`\w` and in its ASCII fragment alike) is deleted. -/
theorem c9_witness :
    6 ≤ 7 ∧ removeRepeats wordChar (List.replicate 7 'a')
      = (if wordChar 'a' then [] else List.replicate 7 'a') :=
  ⟨by decide, c9_amended wordChar 'a' 7 (by decide)⟩

/-! ## C1: unmatched token in offset reconstruction -/

/-- C1 counterexample: the claim says a token that cannot be found at or after
the cursor is skipped and never yields a span. In the code `find` returns `-1`,
the token is still recorded, and here (token `"aa"` absent from text `"bb"`,
mapped to feature `"qq"` with score `1/2`) it yields a span with start `-1`. -/
theorem c1_counterexample :
    pyFind (s2c "bb") (s2c "aa") 0 = -1 ∧
    entitiesOf (s2c "bb") [s2c "aa"] [(s2c "aa", s2c "qq")] [(s2c "qq", mkRat 1 2)]
      = [⟨-1, 1, mkLabel (mkRat 1 2)⟩] := by
  constructor
  · decide
  · decide

/-- C1 (amended): a token not found at or after the cursor is not skipped: it
is recorded with `start_idx = -1` and `end_idx = length - 1`, and the cursor
becomes `length - 1`; it yields no span when its surface form is not a key of
the reverse mapping, but when it is a key whose mapped form scores at least
`0.01` in magnitude it yields a span with start `-1`; no error is ever
raised (the loop is total). -/
theorem c1_amended (text w : Str) (rest : List Str) (cur : Int)
    (wm : List (Str × Str)) (table : List (Str × ℚ))
    (h : pyFind text w cur = -1) :
    (word_positions text (w :: rest) cur
      = ⟨w, -1, (w.length : Int) - 1⟩ :: word_positions text rest ((w.length : Int) - 1)) ∧
    (dictLookup wm w = none →
      entitiesFrom text (w :: rest) cur wm table
        = entitiesFrom text rest ((w.length : Int) - 1) wm table) ∧
    (∀ pw v, dictLookup wm w = some pw → tableLookup table pw = some v →
      threshold ≤ rabs v →
      entitiesFrom text (w :: rest) cur wm table
        = ⟨-1, (w.length : Int) - 1, mkLabel v⟩
            :: entitiesFrom text rest ((w.length : Int) - 1) wm table) := by
  have e : (-1 : Int) + (w.length : Int) = (w.length : Int) - 1 := by omega
  have hpos : word_positions text (w :: rest) cur
      = ⟨w, -1, (w.length : Int) - 1⟩ :: word_positions text rest ((w.length : Int) - 1) := by
    rw [word_positions]
    simp only [h, e]
  refine ⟨hpos, fun hd => ?_, fun pw v h1 h2 h3 => ?_⟩
  · simp [entitiesFrom, hpos, List.filterMap_cons, emit, hd]
  · simp [entitiesFrom, hpos, List.filterMap_cons, emit, h1, h2, h3]

/-- C1 amended witness: token `"ab"` is absent from text `"cc"`; it gets the
sentinel offsets and, being unmapped, yields no span. -/
theorem c1_witness :
    pyFind (s2c "cc") (s2c "ab") 0 = -1 ∧
    word_positions (s2c "cc") [s2c "ab"] 0 = [⟨s2c "ab", -1, 1⟩] ∧
    entitiesFrom (s2c "cc") [s2c "ab"] 0 [] [(s2c "qq", mkRat 1 2)] = [] := by
  have h := c1_amended (s2c "cc") (s2c "ab") [] 0 [] [(s2c "qq", mkRat 1 2)] (by decide)
  refine ⟨by decide, ?_, ?_⟩
  · rw [h.1]
    decide
  · rw [h.2.1 rfl]
    decide

/-! ## C3: which tokens are highlighted -/

/-- C3 counterexample: token `"cc"` is unchanged by normalization, its final
transformed form is `"cc"` itself with score `1/2` (≥ `0.01`), yet no span is
emitted for it (the emitted list only covers `"aa"` and `"bb"`); moreover the
emitted `NEG (-0.40)` label for `"bb"` has no entry in the color mapping,
which is built from the top-1 set only. -/
theorem c3_counterexample :
    entitiesOf (s2c "aa bb cc") [s2c "aa", s2c "bb", s2c "cc"]
        [(s2c "aa", s2c "qq"), (s2c "bb", s2c "rr")]
        [(s2c "qq", mkRat 3 4), (s2c "rr", mkRat (-2) 5), (s2c "cc", mkRat 1 2)]
      = [⟨0, 2, mkLabel (mkRat 3 4)⟩, ⟨3, 5, mkLabel (mkRat (-2) 5)⟩] ∧
    tableLookup [(s2c "qq", mkRat 3 4), (s2c "rr", mkRat (-2) 5), (s2c "cc", mkRat 1 2)]
        (s2c "cc") = some (mkRat 1 2) ∧
    threshold ≤ rabs (mkRat 1 2) ∧
    mkLabel (mkRat (-2) 5) ∉
      color_options [(s2c "qq", mkRat 3 4), (s2c "rr", mkRat (-2) 5), (s2c "cc", mkRat 1 2)]
        ((compute_shap_values
            [(s2c "qq", mkRat 3 4), (s2c "rr", mkRat (-2) 5), (s2c "cc", mkRat 1 2)]
            [(s2c "aa", s2c "qq"), (s2c "bb", s2c "rr")] 1).2.1) := by
  refine ⟨by decide, by decide, by decide, by decide⟩

/-- C3 (amended): a token is highlighted exactly when its surface form is a
key of the reverse mapping whose mapped form has a score of magnitude at least
`0.01` in the full table; tokens left unchanged by normalization are never
keys, hence never highlighted, and the top-N set plays no role in highlighting
(the color mapping, however, is built from the top-N set only, so highlighted
labels need not have color entries). -/
theorem c3_amended (text w : Str) (cur : Int)
    (wm : List (Str × Str)) (table : List (Str × ℚ)) :
    (dictLookup wm w = none → entitiesFrom text [w] cur wm table = []) ∧
    (∀ pw v, dictLookup wm w = some pw → tableLookup table pw = some v →
      threshold ≤ rabs v →
      entitiesFrom text [w] cur wm table
        = [⟨pyFind text w cur, pyFind text w cur + (w.length : Int), mkLabel v⟩]) ∧
    (∀ pw v, dictLookup wm w = some pw → tableLookup table pw = some v →
      rabs v < threshold → entitiesFrom text [w] cur wm table = []) := by
  refine ⟨fun hd => ?_, fun pw v h1 h2 h3 => ?_, fun pw v h1 h2 h3 => ?_⟩
  · simp [entitiesFrom, word_positions, List.filterMap_cons, emit, hd]
  · simp [entitiesFrom, word_positions, List.filterMap_cons, emit, h1, h2, h3]
  · simp [entitiesFrom, word_positions, List.filterMap_cons, emit, h1, h2,
      not_le.mpr h3]

/-- C3 amended witness: a mapped token with qualifying score is highlighted at
its found offsets. -/
theorem c3_witness :
    dictLookup [(s2c "aa", s2c "qq")] (s2c "aa") = some (s2c "qq") ∧
    tableLookup [(s2c "qq", mkRat 3 4)] (s2c "qq") = some (mkRat 3 4) ∧
    threshold ≤ rabs (mkRat 3 4) ∧
    entitiesFrom (s2c "xx aa") [s2c "aa"] 0 [(s2c "aa", s2c "qq")]
      [(s2c "qq", mkRat 3 4)] = [⟨3, 5, mkLabel (mkRat 3 4)⟩] := by
  have h := (c3_amended (s2c "xx aa") (s2c "aa") 0 [(s2c "aa", s2c "qq")]
    [(s2c "qq", mkRat 3 4)]).2.1 (s2c "qq") (mkRat 3 4) (by decide) (by decide) (by decide)
  refine ⟨by decide, by decide, by decide, ?_⟩
  rw [h]
  decide

/-! ## C6: order of the returned ranked list -/

/-- C6 counterexample: with scores `a ↦ -0.5`, `b ↦ 0.9`, `c ↦ 0.3` the
selector returns `[a, c, b]` (sorted by signed score ascending), whose
magnitudes `0.5, 0.3, 0.9` are not descending. -/
theorem c6_counterexample :
    (compute_shap_values
        [(s2c "a", mkRat (-1) 2), (s2c "b", mkRat 9 10), (s2c "c", mkRat 3 10)]
        [(s2c "x", s2c "a"), (s2c "y", s2c "b"), (s2c "z", s2c "c")] 3).2.1
      = [(s2c "a", mkRat (-1) 2), (s2c "c", mkRat 3 10), (s2c "b", mkRat 9 10)] ∧
    ¬ List.Chain' (fun p q : Str × ℚ => rabs q.2 ≤ rabs p.2)
        [(s2c "a", mkRat (-1) 2), (s2c "c", mkRat 3 10), (s2c "b", mkRat 9 10)] := by
  constructor
  · decide
  · intro hch
    rw [List.chain'_cons, List.chain'_cons] at hch
    exact absurd hch.2.1 (by decide)

/-- C6 (amended): the selector takes the top-N rows by `|score|` but the list
it returns is sorted by SIGNED score ascending (`sort_values(by="SHAP")`), not
by `|score|` descending. -/
theorem c6_amended (table : List (Str × ℚ)) (wm : List (Str × Str)) (topN : Nat) :
    List.Chain' (fun p q : Str × ℚ => p.2 ≤ q.2)
      ((compute_shap_values table wm topN).2.1) :=
  (sortShapAsc_pairwise _).chain'

lemma insertAsc_perm (x : Str × ℚ) (l : List (Str × ℚ)) :
    (insertAsc x l).Perm (x :: l) := by
  induction l with
  | nil => exact List.Perm.refl _
  | cons q qs ih =>
    rw [insertAsc]
    by_cases h : x.2 < q.2
    · simp only [h, if_pos]
      exact List.Perm.refl _
    · simp only [h, if_neg, if_false]
      exact (ih.cons q).trans (List.Perm.swap x q qs)

lemma sortShapAsc_perm (l : List (Str × ℚ)) : (sortShapAsc l).Perm l := by
  induction l with
  | nil => exact List.Perm.refl _
  | cons p ps ih => exact (insertAsc_perm p (sortShapAsc ps)).trans (ih.cons p)

lemma insertDesc_perm (x : Str × ℚ) (l : List (Str × ℚ)) :
    (insertDesc x l).Perm (x :: l) := by
  induction l with
  | nil => exact List.Perm.refl _
  | cons q qs ih =>
    rw [insertDesc]
    by_cases h : rabs q.2 ≤ rabs x.2
    · simp only [h, if_pos]
      exact List.Perm.refl _
    · simp only [h, if_neg, if_false]
      exact (ih.cons q).trans (List.Perm.swap x q qs)

lemma sortAbsDesc_perm (l : List (Str × ℚ)) : (sortAbsDesc l).Perm l := by
  induction l with
  | nil => exact List.Perm.refl _
  | cons p ps ih => exact (insertDesc_perm p (sortAbsDesc ps)).trans (ih.cons p)

/-! ## C7: top-N correction -/

/-- C7: when the requested `topN` exceeds the number of qualifying features
(present in the transform log's after-set and with `|score| ≥ 0.01`), the
selector returns exactly the qualifying features and reports `actualCount`
equal to the number actually returned, not the requested `topN`. -/
theorem c7_top_n_correction (table : List (Str × ℚ)) (wm : List (Str × Str))
    (topN : Nat) (h : (qualifying table wm).length < topN) :
    (compute_shap_values table wm topN).2.1.length = (qualifying table wm).length ∧
    (compute_shap_values table wm topN).2.2 = (qualifying table wm).length ∧
    (∀ x, x ∈ (compute_shap_values table wm topN).2.1 ↔ x ∈ qualifying table wm) := by
  have e1 : (compute_shap_values table wm topN).2.1
      = sortShapAsc ((sortAbsDesc (qualifying table wm)).take topN) := rfl
  have e2 : (compute_shap_values table wm topN).2.2
      = ((sortAbsDesc (qualifying table wm)).take topN).length := rfl
  have hlen1 : (sortAbsDesc (qualifying table wm)).length = (qualifying table wm).length :=
    (sortAbsDesc_perm _).length_eq
  have htake : (sortAbsDesc (qualifying table wm)).take topN
      = sortAbsDesc (qualifying table wm) := List.take_of_length_le (by omega)
  have hperm : (sortShapAsc (sortAbsDesc (qualifying table wm))).Perm (qualifying table wm) :=
    (sortShapAsc_perm _).trans (sortAbsDesc_perm _)
  rw [e1, e2, htake]
  exact ⟨hperm.length_eq, hlen1, fun x => hperm.mem_iff⟩

/-- C7 witness: `topN = 100` with exactly 3 qualifying features returns 3
features and reports `actualCount = 3`. -/
theorem c7_witness :
    (compute_shap_values
        [(s2c "a", mkRat 2 100), (s2c "b", mkRat (-3) 100),
         (s2c "c", mkRat 5 1000), (s2c "d", mkRat 1 2)]
        [(s2c "w", s2c "a"), (s2c "x", s2c "b"), (s2c "y", s2c "d"),
         (s2c "z", s2c "nope")] 100).2.1.length = 3 ∧
    (compute_shap_values
        [(s2c "a", mkRat 2 100), (s2c "b", mkRat (-3) 100),
         (s2c "c", mkRat 5 1000), (s2c "d", mkRat 1 2)]
        [(s2c "w", s2c "a"), (s2c "x", s2c "b"), (s2c "y", s2c "d"),
         (s2c "z", s2c "nope")] 100).2.2 = 3 := by
  have h := c7_top_n_correction
    [(s2c "a", mkRat 2 100), (s2c "b", mkRat (-3) 100),
     (s2c "c", mkRat 5 1000), (s2c "d", mkRat 1 2)]
    [(s2c "w", s2c "a"), (s2c "x", s2c "b"), (s2c "y", s2c "d"),
     (s2c "z", s2c "nope")] 100 (by decide)
  exact ⟨h.1.trans (by decide), h.2.1.trans (by decide)⟩

/-! ## C8: threshold consistency -/

/-- C8: no selected feature and no emitted span carries a score of magnitude
below `0.01` — every row of the returned ranked list passes the threshold and
every emitted entity's label comes from a score `v` with `|v| ≥ 0.01`. -/
theorem c8_threshold (table : List (Str × ℚ)) (wm : List (Str × Str)) (topN : Nat)
    (text : Str) (tokens : List Str) (cur : Int) :
    (∀ f, f ∈ (compute_shap_values table wm topN).2.1 → threshold ≤ rabs f.2) ∧
    (∀ e, e ∈ entitiesFrom text tokens cur wm table →
      ∃ v, threshold ≤ rabs v ∧ e.label = mkLabel v) := by
  constructor
  · intro f hf
    have e1 : (compute_shap_values table wm topN).2.1
        = sortShapAsc ((sortAbsDesc (qualifying table wm)).take topN) := rfl
    rw [e1] at hf
    have hf2 : f ∈ (sortAbsDesc (qualifying table wm)).take topN :=
      (sortShapAsc_perm _).mem_iff.mp hf
    have hf3 : f ∈ sortAbsDesc (qualifying table wm) := List.mem_of_mem_take hf2
    have hf4 : f ∈ qualifying table wm := (sortAbsDesc_perm _).mem_iff.mp hf3
    have := List.of_mem_filter hf4
    simpa using this
  · intro e he
    obtain ⟨wp, _, hemit⟩ := List.mem_filterMap.mp he
    unfold emit at hemit
    split at hemit
    · exact absurd hemit (by simp)
    · split at hemit
      · exact absurd hemit (by simp)
      · split at hemit
        · rename_i v hv hth
          exact ⟨v, hth, by cases hemit; rfl⟩
        · exact absurd hemit (by simp)

/-- C8 witness: a concrete selected feature and a concrete emitted entity,
both carrying score `1/2` of magnitude at least `0.01`. -/
theorem c8_witness :
    threshold ≤ rabs ((s2c "qq", mkRat 1 2) : Str × ℚ).2 ∧
    (∃ v, threshold ≤ rabs v ∧
      (Entity.mk 0 2 (mkLabel (mkRat 1 2))).label = mkLabel v) := by
  have h := c8_threshold [(s2c "qq", mkRat 1 2)] [(s2c "aa", s2c "qq")] 1
    (s2c "aa") [s2c "aa"] 0
  exact ⟨h.1 (s2c "qq", mkRat 1 2) (by decide),
    h.2 ⟨0, 2, mkLabel (mkRat 1 2)⟩ (by decide)⟩

lemma pyInsert_length (l : Str) (i : Int) :
    (pyTake l i ++ '_' :: pyDrop l i).length = l.length + 1 := by
  simp only [pyTake, pyDrop, List.length_append, List.length_cons, List.length_take,
    List.length_drop]
  omega

lemma insertSeps_length : ∀ (ents : List Entity) (mt : Str) (off : Int),
    (insertSeps mt off ents).length = mt.length + countAdjacent ents := by
  intro ents
  induction ents with
  | nil => intro mt off; simp [insertSeps, countAdjacent]
  | cons e0 rest ih =>
    cases rest with
    | nil => intro mt off; simp [insertSeps, countAdjacent]
    | cons e1 rest2 =>
      intro mt off
      rw [insertSeps]
      by_cases hc : e0.«end» + 1 = e1.start
      · have hcond : e0.«end» + off + 1 = e1.start + off := by omega
        simp only [hcond, if_pos]
        rw [ih, pyInsert_length, countAdjacent]
        simp only [hc, if_pos]
        omega
      · have hcond : ¬ (e0.«end» + off + 1 = e1.start + off) := by omega
        simp only [hcond, if_neg, if_false]
        rw [ih, countAdjacent]
        simp only [hc, if_neg, if_false]
        omega

lemma insertSeps_eq_of_countAdjacent_zero : ∀ (ents : List Entity) (mt : Str) (off : Int),
    countAdjacent ents = 0 → insertSeps mt off ents = mt := by
  intro ents
  induction ents with
  | nil => intro mt off _; simp [insertSeps]
  | cons e0 rest ih =>
    cases rest with
    | nil => intro mt off _; simp [insertSeps]
    | cons e1 rest2 =>
      intro mt off h
      rw [countAdjacent] at h
      have hc : ¬ (e0.«end» + 1 = e1.start) := by
        intro hc
        simp [hc] at h
      rw [if_neg hc] at h
      have hcond : ¬ (e0.«end» + off + 1 = e1.start + off) := by omega
      rw [insertSeps]
      simp only [hcond, if_neg, if_false]
      exact ih mt off (by omega)

lemma insertSeps_pair (mt : Str) (a b : Entity) :
    insertSeps mt 0 [a, b]
      = if a.«end» + 1 = b.start then pyTake mt a.«end» ++ '_' :: pyDrop mt a.«end»
        else mt := by
  by_cases hc : a.«end» + 1 = b.start
  · have hcond : a.«end» + 0 + 1 = b.start + 0 := by omega
    rw [insertSeps]
    simp only [hcond, if_pos, hc, add_zero]
    simp [insertSeps]
  · have hcond : ¬ (a.«end» + 0 + 1 = b.start + 0) := by omega
    rw [insertSeps]
    simp only [hcond, if_neg, if_false, hc]
    simp [insertSeps]

lemma count_take_of_not_mem {l : Str} (h : '_' ∉ l) (n : Nat) :
    (l.take n).count '_' = 0 := by
  rw [List.count_eq_zero]
  intro hm
  exact h (List.mem_of_mem_take hm)

lemma count_pyTake_mono (mt : Str) {i j : Int} (h0 : 0 ≤ i) (hij : i ≤ j) :
    (pyTake mt i).count '_' ≤ (pyTake mt j).count '_' := by
  rw [pyTake, pyTake, pySliceIdx, pySliceIdx, if_neg (not_lt.mpr h0),
    if_neg (not_lt.mpr (le_trans h0 hij))]
  have he : mt.take i.toNat = (mt.take j.toNat).take i.toNat := by
    rw [List.take_take]
    congr 1
    exact (inf_eq_left.mpr (Int.toNat_le_toNat hij)).symm
  rw [he]
  exact (List.take_sublist _ _).count_le '_'

lemma adjust_pair (mt : Str) (a b : Entity) (hmem : '_' ∉ mt) (ha0 : 0 ≤ a.start)
    (hase : a.start ≤ a.«end») (hadj : a.«end» + 1 = b.start) (hbse : b.start ≤ b.«end»)
    (hblen : b.«end» ≤ (mt.length : Int)) :
    adjustEntities (insertSeps mt 0 [a, b]) [a, b]
      = [a, ⟨b.start + 1, b.«end» + 1, b.label⟩] := by
  have hae0 : 0 ≤ a.«end» := le_trans ha0 hase
  set k := a.«end».toNat with hk
  have hkval : (k : Int) = a.«end» := Int.toNat_of_nonneg hae0
  have hklen : k + 1 ≤ mt.length := by omega
  have hTake : pyTake mt a.«end» = mt.take k := by
    rw [pyTake, pySliceIdx, if_neg (not_lt.mpr hae0)]
  have hDrop : pyDrop mt a.«end» = mt.drop k := by
    rw [pyDrop, pySliceIdx, if_neg (not_lt.mpr hae0)]
  have hlt : (mt.take k).length = k := by
    rw [List.length_take]
    omega
  have hc_le : ∀ (i : Int), 0 ≤ i → i ≤ a.«end» →
      (pyTake (mt.take k ++ '_' :: mt.drop k) i).count '_' = 0 := by
    intro i h0 hle
    rw [pyTake, pySliceIdx, if_neg (not_lt.mpr h0)]
    rw [List.take_append_of_le_length (by omega : i.toNat ≤ (mt.take k).length)]
    rw [List.take_take]
    exact count_take_of_not_mem hmem _
  have hdropcount : ∀ n, ((mt.drop k).take n).count '_' = 0 := by
    intro n
    rw [List.count_eq_zero]
    intro hm
    exact hmem ((List.drop_sublist k mt).subset (List.mem_of_mem_take hm))
  have hc_gt : ∀ (i : Int), a.«end» + 1 ≤ i →
      (pyTake (mt.take k ++ '_' :: mt.drop k) i).count '_' = 1 := by
    intro i hge
    have h0 : (0 : Int) ≤ i := by omega
    rw [pyTake, pySliceIdx, if_neg (not_lt.mpr h0)]
    rw [List.take_append_eq_append_take]
    rw [List.take_of_length_le (by omega : (mt.take k).length ≤ i.toNat)]
    rw [List.count_append]
    have hsplit : i.toNat - (mt.take k).length = (i.toNat - k - 1) + 1 := by omega
    rw [hsplit, List.take_succ_cons, List.count_cons_self]
    rw [count_take_of_not_mem hmem, hdropcount]
  have c1 := hc_le a.start ha0 hase
  have c2 := hc_le a.«end» hae0 le_rfl
  have c3 := hc_gt b.start (by omega)
  have c4 := hc_gt b.«end» (by omega)
  rw [insertSeps_pair, if_pos hadj, hTake, hDrop]
  simp only [adjustEntities, List.map_cons, List.map_nil, c1, c2, c3, c4]
  simp

/-! ## C5: adjacency resolution -/

/-- C5 counterexample: for the zero-gap pair `(0,2),(2,4)` the claim requires
one separator, but the code (whose condition is `end + 1 == start`) inserts
none; for the one-character-gap pair `(0,2),(3,5)` the claim requires none,
but the code inserts one, at position 2 (after the first span), producing
`"ab_ cd"`. -/
theorem c5_counterexample :
    insertSeps (s2c "abcd") 0
        [⟨0, 2, mkLabel (mkRat 1 2)⟩, ⟨2, 4, mkLabel (mkRat 1 2)⟩] = s2c "abcd" ∧
    insertSeps (s2c "ab cd") 0
        [⟨0, 2, mkLabel (mkRat 1 2)⟩, ⟨3, 5, mkLabel (mkRat 1 2)⟩] = s2c "ab_ cd" := by
  constructor
  · decide
  · decide

/-- C5 (amended): one underscore is inserted, at position `span[i].end` in the
running coordinates, exactly when `span[i].end + 1 == span[i+1].start` (a
one-character gap) — never for a zero gap — so the modified text grows by the
number of one-character-gap pairs; for a resolved pair in an underscore-free
text the first span is unchanged by the index adjustment and the second is
shifted right by exactly the one inserted separator. -/
theorem c5_amended :
    (∀ (mt : Str) (off : Int) (ents : List Entity),
      (insertSeps mt off ents).length = mt.length + countAdjacent ents) ∧
    (∀ (mt : Str) (a b : Entity),
      insertSeps mt 0 [a, b]
        = if a.«end» + 1 = b.start then pyTake mt a.«end» ++ '_' :: pyDrop mt a.«end»
          else mt) ∧
    (∀ (mt : Str) (a b : Entity), '_' ∉ mt → 0 ≤ a.start → a.start ≤ a.«end» →
      a.«end» + 1 = b.start → b.start ≤ b.«end» → b.«end» ≤ (mt.length : Int) →
      adjustEntities (insertSeps mt 0 [a, b]) [a, b]
        = [a, ⟨b.start + 1, b.«end» + 1, b.label⟩]) :=
  ⟨fun mt off ents => insertSeps_length ents mt off,
   insertSeps_pair,
   adjust_pair⟩

/-- C5 amended witness: the one-character-gap pair `(0,2),(3,5)` over
`"ab cd"`: one separator is inserted and the adjusted spans are
`(0,2),(4,6)`. -/
theorem c5_witness :
    ('_' ∉ s2c "ab cd") ∧
    (insertSeps (s2c "ab cd") 0
        [⟨0, 2, mkLabel (mkRat 1 2)⟩, ⟨3, 5, mkLabel (mkRat 1 2)⟩]).length
      = (s2c "ab cd").length
        + countAdjacent [⟨0, 2, mkLabel (mkRat 1 2)⟩, ⟨3, 5, mkLabel (mkRat 1 2)⟩] ∧
    adjustEntities
        (insertSeps (s2c "ab cd") 0
          [⟨0, 2, mkLabel (mkRat 1 2)⟩, ⟨3, 5, mkLabel (mkRat 1 2)⟩])
        [⟨0, 2, mkLabel (mkRat 1 2)⟩, ⟨3, 5, mkLabel (mkRat 1 2)⟩]
      = [⟨0, 2, mkLabel (mkRat 1 2)⟩, ⟨4, 6, mkLabel (mkRat 1 2)⟩] := by
  refine ⟨by decide, c5_amended.1 (s2c "ab cd") 0 _, ?_⟩
  have h := c5_amended.2.2 (s2c "ab cd")
    ⟨0, 2, mkLabel (mkRat 1 2)⟩ ⟨3, 5, mkLabel (mkRat 1 2)⟩
    (by decide) (by decide) (by decide) (by decide) (by decide) (by decide)
  simpa using h

/-! ## C10: pre-existing underscores shift the adjusted spans -/

/-- C10 counterexample: in raw text `"_ aaa"` the token `"aa"` is highlighted
at `(2,4)` with an underscore before it and no separator inserted; the
adjusted span `(3,5)` does exceed the true offsets, but — refuting the
claim's universal "no longer covers" clause — the shifted window still reads
exactly `"aa"`, the token's surface form. -/
theorem c10_counterexample :
    entitiesOf (s2c "_ aaa") [s2c "aa"] [(s2c "aa", s2c "qq")]
        [(s2c "qq", mkRat 1 2)] = [⟨2, 4, mkLabel (mkRat 1 2)⟩] ∧
    insertSeps (s2c "_ aaa") 0
        (entitiesOf (s2c "_ aaa") [s2c "aa"] [(s2c "aa", s2c "qq")]
          [(s2c "qq", mkRat 1 2)]) = s2c "_ aaa" ∧
    '_' ∈ pyTake (s2c "_ aaa") 2 ∧
    adjusted_entities (s2c "_ aaa") [s2c "aa"] [(s2c "aa", s2c "qq")]
        [(s2c "qq", mkRat 1 2)] = [⟨3, 5, mkLabel (mkRat 1 2)⟩] ∧
    List.take 2 (List.drop 3 (s2c "_ aaa")) = s2c "aa" := by
  refine ⟨by decide, by decide, by decide, by decide, by decide⟩

/-- C10 (amended): the index adjustment shifts each span by the count of ALL
underscore characters in the working text before the span's original offset,
pre-existing ones included; with no one-character-gap pairs the insertion pass
leaves the text unchanged, and an underscore anywhere before a span's start
makes both adjusted offsets strictly exceed the true ones, so the adjusted
span covers a right-shifted window that in general (though not in every
contrived periodic text) differs from the token's surface form. -/
theorem c10_amended :
    (∀ (mt : Str) (off : Int) (ents : List Entity), countAdjacent ents = 0 →
      insertSeps mt off ents = mt) ∧
    (∀ (mt : Str) (e : Entity), 0 ≤ e.start → e.start ≤ e.«end» →
      '_' ∈ pyTake mt e.start →
      ∀ e' ∈ adjustEntities mt [e], e.start < e'.start ∧ e.«end» < e'.«end») := by
  constructor
  · intro mt off ents h
    exact insertSeps_eq_of_countAdjacent_zero ents mt off h
  · intro mt e h0 hse hm e' he'
    simp only [adjustEntities, List.map_cons, List.map_nil, List.mem_singleton] at he'
    subst he'
    have h1 : 0 < (pyTake mt e.start).count '_' := List.count_pos_iff.mpr hm
    have h2 := count_pyTake_mono mt h0 hse
    constructor
    · simp only []
      omega
    · simp only []
      omega

/-- C10 amended witness: the entity `(2,4)` of `"_ aaa"` is shifted to a span
strictly beyond its true offsets although no separator was inserted. -/
theorem c10_witness :
    insertSeps (s2c "xy") 0 [] = s2c "xy" ∧
    '_' ∈ pyTake (s2c "_ aaa") 2 ∧
    ((2 : Int) < (Entity.mk 3 5 (mkLabel (mkRat 1 2))).start ∧
     (4 : Int) < (Entity.mk 3 5 (mkLabel (mkRat 1 2))).«end») := by
  refine ⟨c10_amended.1 (s2c "xy") 0 [] (by decide), by decide, ?_⟩
  exact c10_amended.2 (s2c "_ aaa") ⟨2, 4, mkLabel (mkRat 1 2)⟩
    (by decide) (by decide) (by decide)
    ⟨3, 5, mkLabel (mkRat 1 2)⟩ (by decide)

lemma findFrom_ge {text w : Str} {s i : Nat} (h : findFrom text w s = some i) : s ≤ i := by
  unfold findFrom at h
  obtain ⟨ys, hy⟩ := List.head?_eq_some_iff.mp h
  have hx : i ∈ (List.range (text.length + 1)).filter
      (fun j => decide (s ≤ j) && w.isPrefixOf (text.drop j)) := by
    rw [hy]
    exact List.mem_cons_self i ys
  have hp := List.of_mem_filter hx
  simp only [Bool.and_eq_true, decide_eq_true_eq] at hp
  exact hp.1

lemma pyFind_ge {text w : Str} {cur : Int} (h0 : 0 ≤ cur)
    (h : 0 ≤ pyFind text w cur) : cur ≤ pyFind text w cur := by
  unfold pyFind at h ⊢
  cases hf : findFrom text w (pySliceIdx text.length cur) with
  | none =>
    rw [hf] at h
    exact absurd h (by decide)
  | some i =>
    show cur ≤ (i : Int)
    have hs : pySliceIdx text.length cur = cur.toNat := by
      rw [pySliceIdx, if_neg (not_lt.mpr h0)]
    rw [hs] at hf
    have := findFrom_ge hf
    omega

lemma wp_facts (text : Str) : ∀ (tokens : List Str) (cur : Int), 0 ≤ cur →
    (∀ wp ∈ word_positions text tokens cur, 0 ≤ wp.start_idx) →
    ((∀ wp ∈ word_positions text tokens cur,
        cur ≤ wp.start_idx ∧ wp.start_idx ≤ wp.end_idx) ∧
      (word_positions text tokens cur).Pairwise
        (fun a b => a.end_idx ≤ b.start_idx)) := by
  intro tokens
  induction tokens with
  | nil =>
    intro cur h0 hall
    simp [word_positions]
  | cons w ws ih =>
    intro cur h0 hall
    simp only [word_positions] at hall ⊢
    have hs0 : 0 ≤ pyFind text w cur :=
      hall _ (List.mem_cons_self _ _)
    have hscur : cur ≤ pyFind text w cur := pyFind_ge h0 hs0
    have hse : pyFind text w cur ≤ pyFind text w cur + (w.length : Int) := by omega
    have he0 : 0 ≤ pyFind text w cur + (w.length : Int) := by omega
    have htail := ih (pyFind text w cur + (w.length : Int)) he0
      (fun wp hwp => hall wp (List.mem_cons_of_mem _ hwp))
    constructor
    · intro wp hwp
      rcases List.mem_cons.mp hwp with rfl | hwp
      · exact ⟨hscur, hse⟩
      · have hb := htail.1 wp hwp
        exact ⟨le_trans (le_trans hscur hse) hb.1, hb.2⟩
    · refine List.Pairwise.cons ?_ htail.2
      intro b hb
      exact (htail.1 b hb).1

lemma emit_offsets {wm : List (Str × Str)} {table : List (Str × ℚ)}
    {wp : WordPos} {e : Entity} (h : emit wm table wp = some e) :
    e.start = wp.start_idx ∧ e.«end» = wp.end_idx := by
  unfold emit at h
  split at h
  · exact absurd h (by simp)
  · split at h
    · exact absurd h (by simp)
    · split at h
      · cases h
        exact ⟨rfl, rfl⟩
      · exact absurd h (by simp)

/-- All tokens were found at or after the cursor during offset
reconstruction (i.e., `find` never returned `-1`). -/
def allFound (text : Str) (tokens : List Str) : Bool :=
  (word_positions text tokens 0).all (fun wp => decide (0 ≤ wp.start_idx))

/-- The spans are in ascending start-offset order. -/
abbrev startSorted (l : List Entity) : Prop :=
  l.Pairwise (fun a b => a.start ≤ b.start)

/-- `span[i].end ≤ span[i+1].start` for every pair in order. -/
abbrev nonOverlapping (l : List Entity) : Prop :=
  l.Pairwise (fun a b => a.«end» ≤ b.start)

/-! ## C4: span non-overlap -/

/-- C4 counterexample: for raw text `"ab"` and token stream `["zz", "ab"]`
(as NLTK produces non-literal tokens such as `` ``` `` for quote characters,
a token can be unfindable), both tokens get the sentinel span `(-1, 1)`; both
are mapped to qualifying features, so the final spans — already in ascending
start order — overlap: `span[0].end = 1 > span[1].start = -1`. -/
theorem c4_counterexample :
    adjusted_entities (s2c "ab") [s2c "zz", s2c "ab"]
        [(s2c "zz", s2c "q"), (s2c "ab", s2c "r")]
        [(s2c "q", mkRat 1 2), (s2c "r", mkRat 1 2)]
      = [⟨-1, 1, mkLabel (mkRat 1 2)⟩, ⟨-1, 1, mkLabel (mkRat 1 2)⟩] ∧
    startSorted [⟨-1, 1, mkLabel (mkRat 1 2)⟩, ⟨-1, 1, mkLabel (mkRat 1 2)⟩] ∧
    ¬ nonOverlapping
        [⟨-1, 1, mkLabel (mkRat 1 2)⟩, ⟨-1, 1, mkLabel (mkRat 1 2)⟩] := by
  refine ⟨by decide, by decide, by decide⟩

/-- C4 (amended): when every token is actually found at or after the cursor
(`find` never returns `-1`), the final adjusted spans are emitted in ascending
start order and are non-overlapping: `span[i].end ≤ span[i+1].start` for all
pairs. -/
theorem c4_amended (text : Str) (tokens : List Str) (wm : List (Str × Str))
    (table : List (Str × ℚ)) (h : allFound text tokens = true) :
    startSorted (adjusted_entities text tokens wm table) ∧
    nonOverlapping (adjusted_entities text tokens wm table) := by
  have hall : ∀ wp ∈ word_positions text tokens 0, 0 ≤ wp.start_idx := by
    intro wp hwp
    have := List.all_eq_true.mp h wp hwp
    simpa using this
  obtain ⟨hbounds, hpw⟩ := wp_facts text tokens 0 le_rfl hall
  have hentfacts : ∀ en ∈ entitiesOf text tokens wm table,
      0 ≤ en.start ∧ en.start ≤ en.«end» := by
    intro en hen
    obtain ⟨wp, hwp, hemit⟩ := List.mem_filterMap.mp hen
    obtain ⟨h1, h2⟩ := emit_offsets hemit
    have hb := hbounds wp hwp
    have h0 := hall wp hwp
    rw [h1, h2]
    exact ⟨h0, hb.2⟩
  have hentpw : (entitiesOf text tokens wm table).Pairwise
      (fun a b => a.«end» ≤ b.start) := by
    unfold entitiesOf entitiesFrom
    rw [List.pairwise_filterMap]
    refine hpw.imp ?_
    intro a b hab x hx y hy
    have hxo := emit_offsets (Option.mem_def.mp hx)
    have hyo := emit_offsets (Option.mem_def.mp hy)
    rw [hxo.2, hyo.1]
    exact hab
  have hmain : ∀ (mt : Str),
      startSorted (adjustEntities mt (entitiesOf text tokens wm table)) ∧
      nonOverlapping (adjustEntities mt (entitiesOf text tokens wm table)) := by
    intro mt
    constructor
    · unfold adjustEntities
      refine List.pairwise_map.mpr (hentpw.imp_of_mem ?_)
      intro a b ha hb hab
      have hfa := hentfacts a ha
      have hfb := hentfacts b hb
      have hab' : a.start ≤ b.start := le_trans hfa.2 hab
      have hmono := count_pyTake_mono mt hfa.1 hab'
      simp only
      omega
    · unfold adjustEntities
      refine List.pairwise_map.mpr (hentpw.imp_of_mem ?_)
      intro a b ha hb hab
      have hfa := hentfacts a ha
      have hae0 : 0 ≤ a.«end» := le_trans hfa.1 hfa.2
      have hmono := count_pyTake_mono mt hae0 hab
      simp only
      omega
  exact hmain (insertSeps text 0 (entitiesOf text tokens wm table))

/-- C4 amended witness: for `"ab cd"` with both tokens found and highlighted,
the adjusted spans are start-sorted and non-overlapping. -/
theorem c4_witness :
    allFound (s2c "ab cd") [s2c "ab", s2c "cd"] = true ∧
    startSorted (adjusted_entities (s2c "ab cd") [s2c "ab", s2c "cd"]
      [(s2c "ab", s2c "q"), (s2c "cd", s2c "r")]
      [(s2c "q", mkRat 1 2), (s2c "r", mkRat (-3) 10)]) ∧
    nonOverlapping (adjusted_entities (s2c "ab cd") [s2c "ab", s2c "cd"]
      [(s2c "ab", s2c "q"), (s2c "cd", s2c "r")]
      [(s2c "q", mkRat 1 2), (s2c "r", mkRat (-3) 10)]) := by
  have h := c4_amended (s2c "ab cd") [s2c "ab", s2c "cd"]
    [(s2c "ab", s2c "q"), (s2c "cd", s2c "r")]
    [(s2c "q", mkRat 1 2), (s2c "r", mkRat (-3) 10)] (by decide)
  exact ⟨by decide, h.1, h.2⟩

/-! ## C2: the reverse map does not compose transforms -/

/-- C2: evaluation at the failing input. The transform log of the spec's
end-to-end example records the slang pair `(lit, great)` on the original
surface form but the stem pairs on the LOWERCASED pre-stem forms (app.py
lines 38-47), so the reverse map has key `"amazing"`, not `"AMAZING"`: the
lookup of the raw token `"AMAZING"` yields `none` and no span is emitted over
its offsets `(15, 22)` although its final form `"amaz"` scores `1/2`; only
`"movie"` at `(5, 10)` and `"lit"` at `(34, 37)` are highlighted. A chained
log `(funy, funny), (funny, funni)` likewise resolves `"funy"` only to
`"funny"`, not transitively to the final form `"funni"`. -/
theorem c2_reverse_map_eval :
    dictLookup
        [(s2c "lit", s2c "great"), (s2c "movie", s2c "movi"),
         (s2c "amazing", s2c "amaz"), (s2c "totally", s2c "total")]
        (s2c "AMAZING") = none ∧
    dictLookup [(s2c "funy", s2c "funny"), (s2c "funny", s2c "funni")]
        (s2c "funy") = some (s2c "funny") ∧
    tableLookup
        [(s2c "great", mkRat 3 10), (s2c "amaz", mkRat 1 2),
         (s2c "movi", mkRat 2 100), (s2c "total", mkRat 3 100),
         (s2c "best", mkRat 4 10), (s2c "film", mkRat 5 100),
         (s2c "ever", mkRat 1 1000)]
        (s2c "amaz") = some (mkRat 1 2) ∧
    threshold ≤ rabs (mkRat 1 2) ∧
    entitiesOf (s2c "This movie was AMAZING!!! Totally lit, best film ever.")
        [s2c "This", s2c "movie", s2c "was", s2c "AMAZING", s2c "!", s2c "!",
         s2c "!", s2c "Totally", s2c "lit", s2c ",", s2c "best", s2c "film",
         s2c "ever", s2c "."]
        [(s2c "lit", s2c "great"), (s2c "movie", s2c "movi"),
         (s2c "amazing", s2c "amaz"), (s2c "totally", s2c "total")]
        [(s2c "great", mkRat 3 10), (s2c "amaz", mkRat 1 2),
         (s2c "movi", mkRat 2 100), (s2c "total", mkRat 3 100),
         (s2c "best", mkRat 4 10), (s2c "film", mkRat 5 100),
         (s2c "ever", mkRat 1 1000)]
      = [⟨5, 10, mkLabel (mkRat 2 100)⟩, ⟨34, 37, mkLabel (mkRat 3 10)⟩] := by
  refine ⟨by decide, by decide, by decide, by decide, by decide⟩

end SentimentApp
